import Mathlib

/-!
# A verification development for the permissio-node SDK core

This file gives a shallow embedding, in Lean 4, of the client-side
authorization-decision core of the permissio-node SDK
(`src/permissio.ts` and `src/config.ts`): the role-graph resolver
(`getRolePermissions`), the permission matcher, the request-field
extraction helpers, the mutable configuration with its scope handling
(`updateScope`, `hasScope`, `ensureScope`, `fetchAndSetScope`), the
`checkWithDetails` decision pipeline, and a cooperative-scheduling model
of concurrent `ensureScope` calls.

JavaScript strings are modelled as Lean `String`s (key comparison in the
source is exact string equality, which coincides with Lean string
equality); where the source manipulates the characters of a string
(`split(":")`, `includes(":")`) we work on the underlying character
list.  JavaScript `undefined`-able values are modelled with `Option`,
and JavaScript string truthiness (`""` is falsy) is modelled explicitly
by `jsTruthy`.  Thrown exceptions are modelled with `Except String`,
carrying the message.  External collaborators (the REST API) are
modelled as an environment record of oracles, and the pipeline also
returns the list of API calls it performed so that claims about "no
further external calls" can be stated.
-/

namespace Permissio

/-! ## JavaScript-semantics helpers -/

/-- Truthiness of an optional JavaScript string: `undefined` and `""` are
falsy, every other string is truthy. -/
def jsTruthy : Option String → Bool
  | none => false
  | some s => s ≠ ""

/-- Helper for `jsSetDedup`: walk the array keeping each element not yet
seen, exactly as `new Set(xs)` inserts in iteration order. -/
def jsSetDedupAux (seen : List String) : List String → List String
  | [] => []
  | x :: xs =>
    if x ∈ seen then jsSetDedupAux seen xs
    else x :: jsSetDedupAux (x :: seen) xs

/-- `[...new Set(xs)]` for an array of strings: de-duplicate, keeping the
first occurrence of each element, preserving order. -/
def jsSetDedup (l : List String) : List String :=
  jsSetDedupAux [] l

/-- JavaScript `str.split(sep)` for a single-character separator, on the
character list of the string: `"" ↦ [""]`, `":" ↦ ["", ""]`, etc. -/
def jsSplitChar (sep : Char) : List Char → List (List Char)
  | [] => [[]]
  | c :: cs =>
    if c = sep then [] :: jsSplitChar sep cs
    else
      match jsSplitChar sep cs with
      | [] => [[c]]
      | h :: t => (c :: h) :: t

/-! ## Data model (from `src/types`)

Only the fields the decision core reads are modelled; descriptive
metadata (`id`, `name`, timestamps, attributes) plays no part in any
computation of the core. -/

/-- A role definition as read from the API (`IRoleRead`): a key, an
optional list of directly granted permission strings, and an optional
list of parent role keys (`extends` in the source, a reserved word in
Lean). -/
structure IRoleRead where
  key : String
  permissions : Option (List String)
  extendsRoles : Option (List String)
deriving DecidableEq

/-- A role assignment as returned by `roleAssignments.list`. -/
structure IRoleAssignment where
  user : String
  role : String
  tenant : Option String
  resource : Option String
  resourceInstance : Option String
deriving DecidableEq

/-- The `user` argument of a check request: a bare key string or a
structured user object (of which only `.key` is read). -/
inductive UserParam where
  | str (s : String)
  | obj (key : String)
deriving DecidableEq

/-- A structured resource object (`ICheckResource`): only `.type` and
`.key` are read by the extraction helpers. -/
structure ICheckResource where
  type : String
  key : Option String
deriving DecidableEq

/-- The `resource` argument of a check request: a bare string or a
structured object. -/
inductive ResourceParam where
  | str (s : String)
  | obj (r : ICheckResource)
deriving DecidableEq

/-- A permission check request (`ICheckRequest`); the free-form `context`
map is never read by the core and is omitted. -/
structure ICheckRequest where
  user : UserParam
  action : String
  resource : ResourceParam
  tenant : Option String
deriving DecidableEq

/-- Debug metadata attached to a full-path decision. -/
structure DebugInfo where
  matchedRoles : List String
  matchedPermissions : List String
  evaluationTime : Nat
deriving DecidableEq

/-- A permission check decision (`ICheckResponse`). -/
structure ICheckResponse where
  allowed : Bool
  reason : String
  debug : Option DebugInfo
deriving DecidableEq

/-! ## Role graph resolver (`getRolePermissions`)

The source builds a `Map` from the fetched role list (insertion by key,
later entries overwriting earlier ones) and then resolves each role
recursively, threading one mutable visited set through the whole
top-level call.  We model the map as the role list itself with a
last-write-wins lookup, the visited set as a `List String` used only
through membership, and the recursion with explicit fuel; the fuel
`rolesMap.length + 1` is proved sufficient below
(`getRolePermissionsF_stable`), which is the formal content of the
termination of the source recursion.  Besides the permission list and
the final visited set, the model also returns the list of role keys
whose body was actually expanded (visited-check passed and map lookup
succeeded), so that "no role is expanded more than once" can be
stated. -/

/-- Lookup in the map built by `for (const role of roles) rolesMap.set(role.key, role)`:
the last role with the given key wins. -/
def mapGet (rolesMap : List IRoleRead) (k : String) : Option IRoleRead :=
  rolesMap.foldl (fun acc r => if r.key = k then some r else acc) none

/-- One resolution step result: collected permissions, visited set after
the call, and the keys expanded during the call. -/
abbrev ResolveResult := List String × List String × List String

/-- Sequential resolution of a list of parent role keys, threading the
visited set left to right (the `for (const parentRoleKey of role.extends)`
loop), parameterized by the resolver used for a single role. -/
def goParents (f : String → List String → ResolveResult) :
    List String → List String → ResolveResult
  | [], visited => ([], visited, [])
  | p :: ps, visited =>
    let r1 := f p visited
    let r2 := goParents f ps r1.2.1
    (r1.1 ++ r2.1, r2.2.1, r1.2.2 ++ r2.2.2)

/-- Fueled embedding of `getRolePermissions(roleKey, rolesMap, visited)`:
if the key was already visited, contribute nothing; otherwise mark it
visited, look it up (a missing role grants nothing), collect its direct
permissions followed by the recursively collected parent permissions,
and de-duplicate. -/
def getRolePermissionsF : Nat → List IRoleRead → String → List String → ResolveResult
  | 0, _, _, visited => ([], visited, [])
  | fuel + 1, rolesMap, roleKey, visited =>
    if roleKey ∈ visited then ([], visited, [])
    else
      match mapGet rolesMap roleKey with
      | none => ([], roleKey :: visited, [])
      | some role =>
        let res := goParents (getRolePermissionsF fuel rolesMap)
          (role.extendsRoles.getD []) (roleKey :: visited)
        (jsSetDedup (role.permissions.getD [] ++ res.1), res.2.1, roleKey :: res.2.2)

/-- `getRolePermissions` as called by the engine: the fuel
`rolesMap.length + 1` is enough for the recursion to run to completion
(`getRolePermissionsF_stable`). -/
def getRolePermissions (rolesMap : List IRoleRead) (roleKey : String)
    (visited : List String) : List String :=
  (getRolePermissionsF (rolesMap.length + 1) rolesMap roleKey visited).1

/-- The role keys expanded during one top-level resolution call. -/
def expandedKeys (rolesMap : List IRoleRead) (roleKey : String)
    (visited : List String) : List String :=
  (getRolePermissionsF (rolesMap.length + 1) rolesMap roleKey visited).2.2

/-! ## Permission matcher and request-field helpers -/

/-- The permission match performed for each assigned role: the role closure
grants the required permission when it contains the exact
`"<resourceType>:<action>"` string, the type wildcard `"<resourceType>:*"`,
or the global wildcard `"*:*"` (`permissions.includes(...)` three-way
disjunction in `checkWithDetails`). -/
def permissionMatches (resourceType action : String) (permissions : List String) : Bool :=
  permissions.contains (resourceType ++ ":" ++ action) ||
    permissions.contains (resourceType ++ ":*") ||
    permissions.contains "*:*"

/-- `getUserKey`: a bare string is the key, an object contributes its
`.key` field. -/
def getUserKey : UserParam → String
  | .str s => s
  | .obj k => k

/-- `extractResourceType`: for a bare string containing `":"`, the first
field of `split(":")` (the text before the first colon); otherwise the
whole string; for an object, its `.type`. -/
def extractResourceType : ResourceParam → String
  | .str s =>
    if s.data.contains ':' then String.mk ((jsSplitChar ':' s.data).headD []) else s
  | .obj r => r.type

/-- `extractResourceInstanceKey`: for a bare string, `parts[1]` of
`split(":")` when there is more than one field, else `undefined`; for an
object, its `.key`. -/
def extractResourceInstanceKey : ResourceParam → Option String
  | .str s =>
    let parts := jsSplitChar ':' s.data
    if 1 < parts.length then some (String.mk (parts.getD 1 [])) else none
  | .obj r => r.key

/-! ## Configuration and scope (`src/config.ts`, `ensureScope`,
`fetchAndSetScope`) -/

/-- The mutable SDK configuration (`MutableConfig`).  Transport-only fields
(`apiUrl`, `timeout`, `customHeaders`, `retryAttempts`) are omitted: no
modelled computation reads them. -/
structure MutableConfig where
  token : String
  projectId : Option String
  environmentId : Option String
  debug : Bool
  throwOnError : Bool
deriving DecidableEq

/-- `updateScope`: fill `projectId` / `environmentId` from the fetched API
key scope.  The source guards each assignment with
`if (projectId && !this.projectId)`: the incoming value must be truthy and
the configured one falsy (JavaScript truthiness, so `""` counts as not
set). -/
def MutableConfig.updateScope (cfg : MutableConfig)
    (projectId environmentId : Option String) : MutableConfig :=
  let cfg1 :=
    if jsTruthy projectId && !jsTruthy cfg.projectId then
      { cfg with projectId := projectId }
    else cfg
  if jsTruthy environmentId && !jsTruthy cfg1.environmentId then
    { cfg1 with environmentId := environmentId }
  else cfg1

/-- `hasScope`: `!!(this.projectId && this.environmentId)` — both fields
truthily set. -/
def MutableConfig.hasScope (cfg : MutableConfig) : Bool :=
  jsTruthy cfg.projectId && jsTruthy cfg.environmentId

/-- The API-key scope payload returned by `GET /v1/api-key/scope`. -/
structure IApiKeyScope where
  project_id : Option String
  environment_id : Option String
deriving DecidableEq

/-- One external API call performed by the engine. -/
inductive ApiCall where
  | scopeFetch
  | assignments
  | roles
deriving DecidableEq

/-- The external collaborators of the engine, as oracles: each call either
returns a payload or throws (`Except String` carries the message; we
identify a JavaScript error with the string it interpolates to).  `Option`
on the payloads models a possibly missing `data` field in the response. -/
structure Env where
  listAssignments : String → Option String → Except String (Option (List IRoleAssignment))
  listRoles : Except String (Option (List IRoleRead))
  fetchScope : Except String IApiKeyScope

/-- The message of the error raised when the scope fetch fails and no
scope is configured. -/
def scopeErrorMsg (e : String) : String :=
  "Permissio.io SDK: Failed to fetch API key scope. " ++
    "Either provide projectId and environmentId in config, " ++
    "or ensure the API key has valid scope. " ++ "Error: " ++ e

/-- `fetchAndSetScope`: fetch the API key scope; on success update the
configuration and mark the scope initialized; on failure raise unless the
configuration already has a full scope (in which case just mark
initialized).  Returns the updated configuration and the
`scopeInitialized` flag. -/
def fetchAndSetScope (cfg : MutableConfig) (env : Env) :
    Except String (MutableConfig × Bool) :=
  match env.fetchScope with
  | .ok scope => .ok (cfg.updateScope scope.project_id scope.environment_id, true)
  | .error e =>
    if ¬ cfg.hasScope then .error (scopeErrorMsg e)
    else .ok (cfg, true)

/-- `ensureScope`, sequential execution: return at once when the scope is
already initialized or configured, otherwise fetch it.  The call list
records whether the scope endpoint was hit.  (The promise-deduplication
branch is only observable under concurrency; see the scheduling model
below.) -/
def ensureScope (cfg : MutableConfig) (inited : Bool) (env : Env) :
    Except String (MutableConfig × Bool) × List ApiCall :=
  if inited || cfg.hasScope then (.ok (cfg, inited), [])
  else (fetchAndSetScope cfg env, [ApiCall.scopeFetch])

/-! ## Decision engine (`checkWithDetails`) -/

/-- The `try` body of `checkWithDetails` (steps 2-8): derive the request
fields, fetch the role assignments (short-circuiting to a negative
decision with no debug payload when there are none), fetch the role table
once, resolve each assigned role's closure with a fresh visited set, and
match it against the required permission.  (The source also computes
`resourceInstanceKey` here; it is never read afterwards and is omitted.) -/
def checkBody (env : Env) (req : ICheckRequest) :
    Except String ICheckResponse × List ApiCall :=
  let userKey := getUserKey req.user
  let resourceType := extractResourceType req.resource
  let requiredPermission := resourceType ++ ":" ++ req.action
  match env.listAssignments userKey req.tenant with
  | .error e => (.error e, [ApiCall.assignments])
  | .ok none =>
    (.ok ⟨false, "User " ++ userKey ++ " has no role assignments", none⟩,
      [ApiCall.assignments])
  | .ok (some assignments) =>
    if assignments.length = 0 then
      (.ok ⟨false, "User " ++ userKey ++ " has no role assignments", none⟩,
        [ApiCall.assignments])
    else
      let roleKeys := jsSetDedup (assignments.map IRoleAssignment.role)
      match env.listRoles with
      | .error e => (.error e, [ApiCall.assignments, ApiCall.roles])
      | .ok rolesData =>
        let rolesMap := rolesData.getD []
        let matchedRoles := roleKeys.filter (fun roleKey =>
          permissionMatches resourceType req.action
            (getRolePermissions rolesMap roleKey []))
        let matchedPermissions := matchedRoles.map (fun _ => requiredPermission)
        let allowed := decide (0 < matchedRoles.length)
        (.ok ⟨allowed,
          if allowed then
            "Granted by role(s): " ++ String.intercalate ", " matchedRoles
          else "No role grants permission " ++ requiredPermission,
          some ⟨matchedRoles, matchedPermissions, 0⟩⟩,
          [ApiCall.assignments, ApiCall.roles])

/-- `checkWithDetails`: `await this.ensureScope()` runs before the `try`
block, so a scope-resolution failure propagates unconditionally; errors
from the body are re-thrown when `throwOnError` is set and otherwise
degraded to a negative decision. -/
def checkWithDetails (cfg : MutableConfig) (inited : Bool) (env : Env)
    (req : ICheckRequest) : Except String ICheckResponse × List ApiCall :=
  match ensureScope cfg inited env with
  | (.error e, log) => (.error e, log)
  | (.ok (cfg', _), log) =>
    match checkBody env req with
    | (.ok resp, log2) => (.ok resp, log ++ log2)
    | (.error e, log2) =>
      if cfg'.throwOnError then (.error e, log ++ log2)
      else (.ok ⟨false, "Error during permission check: " ++ e, none⟩, log ++ log2)

/-! ## Cooperative-concurrency model of `ensureScope` single-flight

Two tasks concurrently run `ensureScope` on one client instance whose
scope is not configured (`hasScope` false) and not initialized.  Under
the JavaScript event loop, execution interleaves only at `await`
points, so the whole synchronous prefix of `ensureScope` — the
initialized check, the in-flight-promise check, storing the new promise
and running `fetchAndSetScope` up to its first `await` — is one atomic
step.  The fetch is assumed to succeed (it then sets the configured
scope and the initialized flag together, so tracking the flag alone
suffices). -/

/-- Program counter of one task running `ensureScope`. -/
inductive TaskPc where
  | entry
  | fetching
  | waitingOther
  | finished
deriving DecidableEq

/-- Shared state of the client instance plus the two task counters. -/
structure ScopeState where
  scopeInitialized : Bool
  promiseActive : Bool
  fetchCount : Nat
  pc1 : TaskPc
  pc2 : TaskPc
deriving DecidableEq

/-- One atomic step of a task's `ensureScope` execution; a blocked or
finished task is a no-op. -/
def taskStep (pc : TaskPc) (s : ScopeState) : TaskPc × ScopeState :=
  match pc with
  | .entry =>
    if s.scopeInitialized then (.finished, s)
    else if s.promiseActive then (.waitingOther, s)
    else (.fetching, { s with promiseActive := true, fetchCount := s.fetchCount + 1 })
  | .fetching =>
    (.finished, { s with scopeInitialized := true, promiseActive := false })
  | .waitingOther =>
    if s.promiseActive then (.waitingOther, s) else (.finished, s)
  | .finished => (.finished, s)

/-- Scheduler step: `true` runs task 1, `false` runs task 2. -/
def schedStep (choice : Bool) (s : ScopeState) : ScopeState :=
  if choice then
    let r := taskStep s.pc1 s
    { r.2 with pc1 := r.1 }
  else
    let r := taskStep s.pc2 s
    { r.2 with pc2 := r.1 }

/-- Initial state: scope unset, no promise in flight, no fetches yet. -/
def scopeInit : ScopeState :=
  ⟨false, false, 0, TaskPc.entry, TaskPc.entry⟩

/-- Run a schedule (an arbitrary interleaving of the two tasks). -/
def runSched (sched : List Bool) : ScopeState :=
  sched.foldl (fun s c => schedStep c s) scopeInit

/-- Single-flight invariant of the two-task model. -/
def ScopeInv (s : ScopeState) : Prop :=
  s.fetchCount ≤ 1 ∧
  (s.promiseActive ↔ (s.pc1 = TaskPc.fetching ∨ s.pc2 = TaskPc.fetching)) ∧
  ¬(s.pc1 = TaskPc.fetching ∧ s.pc2 = TaskPc.fetching) ∧
  (s.scopeInitialized = true → s.promiseActive = false ∧ s.fetchCount = 1) ∧
  (s.fetchCount = 1 → s.promiseActive = true ∨ s.scopeInitialized = true) ∧
  (s.fetchCount = 0 → s.scopeInitialized = false ∧ s.promiseActive = false) ∧
  (s.pc1 = TaskPc.waitingOther → s.promiseActive = true ∨ s.scopeInitialized = true) ∧
  (s.pc2 = TaskPc.waitingOther → s.promiseActive = true ∨ s.scopeInitialized = true) ∧
  (s.pc1 = TaskPc.finished → s.scopeInitialized = true) ∧
  (s.pc2 = TaskPc.finished → s.scopeInitialized = true)

/-- The number of role keys of the table not yet visited: the measure that
shrinks as the resolver expands roles. -/
def remainingKeys (m : List IRoleRead) (visited : List String) : Nat :=
  ((m.map IRoleRead.key).filter (fun k => decide (k ∉ visited))).length

/-- Invariant of one resolver call: the visited set only grows, and the
keys expanded during the call are pairwise distinct, were not visited
before the call, and are visited after it. -/
def ResolveInv (visited : List String) (res : ResolveResult) : Prop :=
  visited ⊆ res.2.1 ∧ res.2.2.Nodup ∧ (∀ x ∈ res.2.2, x ∉ visited) ∧ res.2.2 ⊆ res.2.1

/-! ### Resolver metatheory -/

theorem mem_jsSetDedupAux {p : String} :
    ∀ {seen l : List String}, p ∈ jsSetDedupAux seen l ↔ p ∈ l ∧ p ∉ seen := by
  intro seen l
  induction l generalizing seen with
  | nil => simp [jsSetDedupAux]
  | cons x xs ih =>
    rw [jsSetDedupAux]
    rcases eq_or_ne p x with rfl | hpx
    · by_cases hx : p ∈ seen <;> simp [hx, ih]
    · by_cases hx : x ∈ seen <;> simp [hx, hpx, ih]

theorem mem_jsSetDedup {p : String} {l : List String} : p ∈ jsSetDedup l ↔ p ∈ l := by
  rw [jsSetDedup, mem_jsSetDedupAux]; simp

theorem nodup_jsSetDedupAux :
    ∀ (seen l : List String), (jsSetDedupAux seen l).Nodup := by
  intro seen l
  induction l generalizing seen with
  | nil => simp [jsSetDedupAux]
  | cons x xs ih =>
    rw [jsSetDedupAux]
    by_cases hx : x ∈ seen
    · rw [if_pos hx]; exact ih seen
    · rw [if_neg hx]
      refine List.nodup_cons.mpr ⟨fun hmem => ?_, ih _⟩
      have := mem_jsSetDedupAux.mp hmem
      simp at this

theorem nodup_jsSetDedup (l : List String) : (jsSetDedup l).Nodup :=
  nodup_jsSetDedupAux [] l

theorem jsSplitChar_ne_nil (sep : Char) : ∀ (l : List Char), jsSplitChar sep l ≠ []
  | [] => by simp [jsSplitChar]
  | c :: cs => by
    rw [jsSplitChar]
    by_cases h : c = sep
    · simp [h]
    · simp only [if_neg h]
      cases jsSplitChar sep cs <;> simp

/-- The first field of a JavaScript split on a single-character separator is
the longest sep-free initial segment of the string. -/
theorem jsSplitChar_head (sep : Char) :
    ∀ (l : List Char), (jsSplitChar sep l).headD [] = l.takeWhile (fun c => c ≠ sep)
  | [] => by simp [jsSplitChar]
  | c :: cs => by
    rw [jsSplitChar]
    by_cases h : c = sep
    · subst h; simp [List.takeWhile]
    · simp only [if_neg h]
      have ih := jsSplitChar_head sep cs
      rcases hs : jsSplitChar sep cs with _ | ⟨hd, tl⟩
      · exact absurd hs (jsSplitChar_ne_nil sep cs)
      · rw [hs] at ih
        simp only [List.headD_cons] at ih
        simp [List.takeWhile, h, ih]

/-- Splitting a string that contains the separator: the first field is the
text before the first separator, and the remaining fields are the split of
the text after the first separator. -/
theorem jsSplitChar_of_mem (sep : Char) :
    ∀ (l : List Char), sep ∈ l →
      jsSplitChar sep l =
        l.takeWhile (fun c => c ≠ sep) :: jsSplitChar sep ((l.dropWhile (fun c => c ≠ sep)).drop 1)
  | [], h => by simp at h
  | c :: cs, h => by
    rw [jsSplitChar]
    by_cases hc : c = sep
    · subst hc
      simp [List.takeWhile, List.dropWhile]
    · have hmem : sep ∈ cs := by
        rcases List.mem_cons.mp h with h' | h'
        · exact absurd h'.symm hc
        · exact h'
      have ih := jsSplitChar_of_mem sep cs hmem
      simp only [if_neg hc, ih]
      simp [List.takeWhile, List.dropWhile, hc]

theorem mapGet_foldl_some {k : String} {r : IRoleRead} :
    ∀ (m : List IRoleRead) (acc : Option IRoleRead),
      m.foldl (fun acc r => if r.key = k then some r else acc) acc = some r →
      acc = some r ∨ (r.key = k ∧ r ∈ m) := by
  intro m
  induction m with
  | nil => intro acc h; exact Or.inl h
  | cons x xs ih =>
    intro acc h
    rw [List.foldl_cons] at h
    rcases ih _ h with h' | h'
    · by_cases hx : x.key = k
      · rw [if_pos hx] at h'
        obtain rfl : x = r := Option.some_inj.mp h'
        exact Or.inr ⟨hx, List.mem_cons_self _ _⟩
      · rw [if_neg hx] at h'
        exact Or.inl h'
    · exact Or.inr ⟨h'.1, List.mem_cons_of_mem _ h'.2⟩

theorem mapGet_some_key {m : List IRoleRead} {k : String} {r : IRoleRead}
    (h : mapGet m k = some r) : r.key = k := by
  rcases mapGet_foldl_some m none h with h' | h'
  · exact absurd h' (by simp)
  · exact h'.1

theorem mapGet_some_mem_keys {m : List IRoleRead} {k : String} {r : IRoleRead}
    (h : mapGet m k = some r) : k ∈ m.map IRoleRead.key := by
  rcases mapGet_foldl_some m none h with h' | h'
  · exact absurd h' (by simp)
  · exact h'.1 ▸ List.mem_map_of_mem _ h'.2

theorem remainingKeys_anti {m : List IRoleRead} {v v' : List String}
    (h : v ⊆ v') : remainingKeys m v' ≤ remainingKeys m v := by
  unfold remainingKeys
  apply List.Sublist.length_le
  apply List.monotone_filter_right
  intro k hk
  simp only [decide_eq_true_eq] at hk ⊢
  exact fun hm => hk (h hm)

theorem length_filter_notMem_cons_lt {k : String} {v : List String} (hv : k ∉ v) :
    ∀ (l : List String), k ∈ l →
      (l.filter (fun a => decide (a ∉ k :: v))).length <
        (l.filter (fun a => decide (a ∉ v))).length := by
  intro l
  induction l with
  | nil => intro hk; simp at hk
  | cons x xs ih =>
    intro hk
    rcases eq_or_ne x k with rfl | hxk
    · have h1 : (decide (x ∉ x :: v)) = false := by simp
      have h2 : (decide (x ∉ v)) = true := by simpa using hv
      have hsub : (xs.filter (fun a => decide (a ∉ x :: v))).length ≤
          (xs.filter (fun a => decide (a ∉ v))).length := by
        apply List.Sublist.length_le
        apply List.monotone_filter_right
        intro a ha
        simp only [decide_eq_true_eq, List.mem_cons, not_or] at ha ⊢
        exact ha.2
      simp only [List.filter_cons, h1, h2, if_true, if_false, Bool.false_eq_true,
        List.length_cons]
      omega
    · have hk' : k ∈ xs := by
        rcases List.mem_cons.mp hk with h' | h'
        · exact absurd h'.symm hxk
        · exact h'
      have heq : (decide (x ∉ k :: v)) = (decide (x ∉ v)) := by
        simp [List.mem_cons, hxk]
      simp only [List.filter_cons, heq]
      cases hdec : decide (x ∉ v)
      · simpa using ih hk'
      · simp only [if_true, List.length_cons]
        exact Nat.succ_lt_succ (ih hk')

theorem remainingKeys_lt {m : List IRoleRead} {k : String} {v : List String}
    (hk : k ∈ m.map IRoleRead.key) (hv : k ∉ v) :
    remainingKeys m (k :: v) < remainingKeys m v :=
  length_filter_notMem_cons_lt hv (m.map IRoleRead.key) hk

theorem goParents_inv {f : String → List String → ResolveResult}
    (hf : ∀ k v, ResolveInv v (f k v)) :
    ∀ (ps : List String) (v : List String), ResolveInv v (goParents f ps v) := by
  intro ps
  induction ps with
  | nil => intro v; exact ⟨fun _ h => h, List.nodup_nil, by simp [goParents], by simp [goParents]⟩
  | cons p ps ih =>
    intro v
    rw [goParents]
    obtain ⟨h1sub, h1nd, h1old, h1new⟩ := hf p v
    obtain ⟨h2sub, h2nd, h2old, h2new⟩ := ih (f p v).2.1
    refine ⟨fun x hx => h2sub (h1sub hx), ?_, ?_, ?_⟩
    · refine List.Nodup.append h1nd h2nd ?_
      intro x hx1 hx2
      exact h2old x hx2 (h1new hx1)
    · intro x hx
      rcases List.mem_append.mp hx with hx | hx
      · exact h1old x hx
      · exact fun hv => h2old x hx (h1sub hv)
    · intro x hx
      rcases List.mem_append.mp hx with hx | hx
      · exact h2sub (h1new hx)
      · exact h2new hx

theorem getRolePermissionsF_inv :
    ∀ (fuel : Nat) (m : List IRoleRead) (k : String) (v : List String),
      ResolveInv v (getRolePermissionsF fuel m k v) := by
  intro fuel
  induction fuel with
  | zero =>
    intro m k v
    exact ⟨fun _ h => h, List.nodup_nil, by simp [getRolePermissionsF],
      by simp [getRolePermissionsF]⟩
  | succ fuel ih =>
    intro m k v
    rw [getRolePermissionsF]
    by_cases hk : k ∈ v
    · rw [if_pos hk]
      exact ⟨fun _ h => h, List.nodup_nil, by simp, by simp⟩
    · rw [if_neg hk]
      rcases hget : mapGet m k with _ | role
      · exact ⟨fun x hx => List.mem_cons_of_mem _ hx, List.nodup_nil, by simp, by simp⟩
      · obtain ⟨hsub, hnd, hold, hnew⟩ :=
          goParents_inv (ih m) (role.extendsRoles.getD []) (k :: v)
        refine ⟨fun x hx => hsub (List.mem_cons_of_mem _ hx), ?_, ?_, ?_⟩
        · refine List.nodup_cons.mpr ⟨fun hmem => ?_, hnd⟩
          exact hold k hmem (List.mem_cons_self _ _)
        · intro x hx
          rcases List.mem_cons.mp hx with rfl | hx
          · exact hk
          · exact fun hv => hold x hx (List.mem_cons_of_mem _ hv)
        · intro x hx
          rcases List.mem_cons.mp hx with rfl | hx
          · exact hsub (List.mem_cons_self _ _)
          · exact hnew hx

theorem goParents_congr {m : List IRoleRead} {B : Nat}
    {f₁ f₂ : String → List String → ResolveResult}
    (hmono : ∀ k v, v ⊆ (f₁ k v).2.1)
    (hagree : ∀ k v, remainingKeys m v ≤ B → f₁ k v = f₂ k v) :
    ∀ (ps : List String) (v : List String), remainingKeys m v ≤ B →
      goParents f₁ ps v = goParents f₂ ps v := by
  intro ps
  induction ps with
  | nil => intro v _; rfl
  | cons p ps ih =>
    intro v hv
    rw [goParents, goParents]
    rw [← hagree p v hv]
    have hsub : v ⊆ (f₁ p v).2.1 := hmono p v
    have hrem : remainingKeys m (f₁ p v).2.1 ≤ B :=
      le_trans (remainingKeys_anti hsub) hv
    rw [ih _ hrem]

/-- Fuel irrelevance: any two fuels strictly above the number of unvisited
table keys compute the same result.  This is the formal statement that the
recursion in `getRolePermissions` terminates: past that bound, adding fuel
changes nothing. -/
theorem getRolePermissionsF_agree :
    ∀ (μ : Nat) (m : List IRoleRead) (v : List String) (k : String) (n₁ n₂ : Nat),
      remainingKeys m v ≤ μ → remainingKeys m v < n₁ → remainingKeys m v < n₂ →
      getRolePermissionsF n₁ m k v = getRolePermissionsF n₂ m k v := by
  intro μ
  induction μ using Nat.strong_induction_on with
  | _ μ ih =>
    intro m v k n₁ n₂ hμ h₁ h₂
    obtain ⟨a, rfl⟩ : ∃ a, n₁ = a + 1 := ⟨n₁ - 1, by omega⟩
    obtain ⟨b, rfl⟩ : ∃ b, n₂ = b + 1 := ⟨n₂ - 1, by omega⟩
    rw [getRolePermissionsF, getRolePermissionsF]
    by_cases hk : k ∈ v
    · rw [if_pos hk, if_pos hk]
    · rw [if_neg hk, if_neg hk]
      rcases hget : mapGet m k with _ | role
      · rfl
      · have hkeys : k ∈ m.map IRoleRead.key := mapGet_some_mem_keys hget
        have hlt : remainingKeys m (k :: v) < remainingKeys m v :=
          remainingKeys_lt hkeys hk
        have hgp : goParents (getRolePermissionsF a m) (role.extendsRoles.getD []) (k :: v) =
            goParents (getRolePermissionsF b m) (role.extendsRoles.getD []) (k :: v) := by
          apply goParents_congr (B := remainingKeys m (k :: v))
          · intro k' v'
            exact (getRolePermissionsF_inv a m k' v').1
          · intro k' v' hv'
            apply ih (remainingKeys m (k :: v)) (by omega) m v' k' a b hv' <;> omega
          · exact le_refl _
        simp only [hgp]

/-- The fuel `m.length + 1` used by `getRolePermissions` is always
sufficient: any larger fuel computes the same value. -/
theorem getRolePermissionsF_stable (m : List IRoleRead) (k : String)
    (v : List String) (fuel : Nat) (h : remainingKeys m v < fuel) :
    getRolePermissionsF fuel m k v = getRolePermissionsF (m.length + 1) m k v := by
  have hb : remainingKeys m v ≤ m.length := by
    unfold remainingKeys
    calc ((m.map IRoleRead.key).filter _).length
        ≤ (m.map IRoleRead.key).length := List.length_filter_le _ _
      _ = m.length := List.length_map _ _
  exact getRolePermissionsF_agree (remainingKeys m v) m v k fuel (m.length + 1)
    (le_refl _) h (by omega)

/-- The measure bound for an empty visited set. -/
theorem remainingKeys_le_length (m : List IRoleRead) (v : List String) :
    remainingKeys m v ≤ m.length := by
  unfold remainingKeys
  calc ((m.map IRoleRead.key).filter _).length
      ≤ (m.map IRoleRead.key).length := List.length_filter_le _ _
    _ = m.length := List.length_map _ _

/-- Splitting a string that does not contain the separator yields the
whole string as the single field. -/
theorem jsSplitChar_of_not_mem (sep : Char) :
    ∀ (l : List Char), sep ∉ l → jsSplitChar sep l = [l] := by
  intro l
  induction l with
  | nil => intro _; rfl
  | cons c cs ih =>
    intro h
    have hc : c ≠ sep := fun hcs => h (hcs ▸ List.mem_cons_self _ _)
    have hcs : sep ∉ cs := fun hx => h (List.mem_cons_of_mem _ hx)
    rw [jsSplitChar, if_neg hc, ih hcs]

/-- `ensureScope` logs at most the scope-fetch call. -/
theorem ensureScope_log_cases (cfg : MutableConfig) (inited : Bool) (env : Env) :
    (ensureScope cfg inited env).2 = [] ∨
      (ensureScope cfg inited env).2 = [ApiCall.scopeFetch] := by
  rw [ensureScope]
  split
  · exact Or.inl rfl
  · exact Or.inr rfl

/-- Every successful decision produced by the `try` body either carries no
debug payload (the no-assignment short circuit) or carries one whose
`evaluationTime` is the literal `0`. -/
theorem checkBody_ok_debug (env : Env) (req : ICheckRequest)
    (resp : ICheckResponse) (log : List ApiCall)
    (h : checkBody env req = (.ok resp, log)) :
    resp.debug = none ∨ ∃ mr mp, resp.debug = some ⟨mr, mp, 0⟩ := by
  rcases hA : env.listAssignments (getUserKey req.user) req.tenant with e | d
  · simp [checkBody, hA] at h
  · rcases d with _ | assignments
    · simp [checkBody, hA] at h
      left
      rw [← h.1]
    · by_cases hlen : assignments.length = 0
      · simp [checkBody, hA, hlen] at h
        left
        rw [← h.1]
      · rcases hR : env.listRoles with e | rolesData
        · simp [checkBody, hA, hlen, hR] at h
        · simp [checkBody, hA, hlen, hR] at h
          right
          rw [← h.1]
          exact ⟨_, _, rfl⟩

/-! ## Claims -/

/-- C1: for every role table and every linear inheritance chain in it
(role `A` extends `B`, `B` extends `C`, with no other parents), the
role-closure computation `getRolePermissions(A, table, {})` returns
exactly the set union of the direct permissions of `A`, `B` and `C`,
with no duplicate elements in the returned list. -/
theorem claim1_chain_closure_is_union
    (table : List IRoleRead) (A B C : String) (rA rB rC : IRoleRead)
    (hA : mapGet table A = some rA) (hB : mapGet table B = some rB)
    (hC : mapGet table C = some rC)
    (hAp : rA.extendsRoles.getD [] = [B]) (hBp : rB.extendsRoles.getD [] = [C])
    (hCp : rC.extendsRoles.getD [] = [])
    (hAB : A ≠ B) (hAC : A ≠ C) (hBC : B ≠ C) :
    (∀ p, p ∈ getRolePermissions table A [] ↔
      p ∈ rA.permissions.getD [] ∨ p ∈ rB.permissions.getD [] ∨
        p ∈ rC.permissions.getD []) ∧
    (getRolePermissions table A []).Nodup := by
  have hlen : 3 ≤ table.length := by
    have hnd : ([A, B, C] : List String).Nodup := by simp [hAB, hAC, hBC]
    have hsub : ([A, B, C] : List String) ⊆ table.map IRoleRead.key := by
      intro x hx
      rcases List.mem_cons.mp hx with rfl | hx
      · exact mapGet_some_mem_keys hA
      rcases List.mem_cons.mp hx with rfl | hx
      · exact mapGet_some_mem_keys hB
      rcases List.mem_cons.mp hx with rfl | hx
      · exact mapGet_some_mem_keys hC
      · simp at hx
    have hle := (List.subperm_of_subset hnd hsub).length_le
    simpa using hle
  obtain ⟨f, hf⟩ : ∃ f, table.length + 1 = f + 3 := ⟨table.length - 2, by omega⟩
  constructor
  · intro p
    rw [getRolePermissions, hf]
    simp [getRolePermissionsF, goParents, hA, hB, hC, hAp, hBp, hCp,
      Ne.symm hAB, Ne.symm hAC, Ne.symm hBC, mem_jsSetDedup]
  · rw [getRolePermissions, hf]
    simp [getRolePermissionsF, goParents, hA, hB, hC, hAp, hBp, hCp,
      Ne.symm hAB, Ne.symm hAC, Ne.symm hBC]
    exact nodup_jsSetDedup _

/-- Witness for C1: the chain `a extends b extends c` over a concrete
three-role table. -/
theorem claim1_chain_closure_is_union_witness :
    ("p4" ∈ getRolePermissions
        [⟨"a", some ["p1", "p2"], some ["b"]⟩, ⟨"b", some ["p2", "p3"], some ["c"]⟩,
          ⟨"c", some ["p4"], none⟩] "a" [] ↔
      "p4" ∈ ["p1", "p2"] ∨ "p4" ∈ ["p2", "p3"] ∨ "p4" ∈ ["p4"]) ∧
    (getRolePermissions
        [⟨"a", some ["p1", "p2"], some ["b"]⟩, ⟨"b", some ["p2", "p3"], some ["c"]⟩,
          ⟨"c", some ["p4"], none⟩] "a" []).Nodup := by
  have h := claim1_chain_closure_is_union
    [⟨"a", some ["p1", "p2"], some ["b"]⟩, ⟨"b", some ["p2", "p3"], some ["c"]⟩,
      ⟨"c", some ["p4"], none⟩] "a" "b" "c"
    ⟨"a", some ["p1", "p2"], some ["b"]⟩ ⟨"b", some ["p2", "p3"], some ["c"]⟩
    ⟨"c", some ["p4"], none⟩
    (by decide) (by decide) (by decide) (by decide) (by decide) (by decide)
    (by decide) (by decide) (by decide)
  exact ⟨h.1 "p4", h.2⟩

/-- C2: for every role table containing roles `X` and `Y` with `X extends
Y` and `Y extends X` (a direct cycle), `getRolePermissions(X, table, {})`
terminates — formalized as: the fueled computation is already stable at
the fuel the engine uses, so adding fuel changes nothing — and the
returned permission set is exactly the union of `X`'s and `Y`'s direct
permissions; more generally (last conjunct, for every table and role
key), no role key is expanded more than once per top-level closure
computation, whatever cycles or diamond inheritance the table contains. -/
theorem claim2_cycle_safety
    (table : List IRoleRead) (X Y : String) (rX rY : IRoleRead)
    (hX : mapGet table X = some rX) (hY : mapGet table Y = some rY)
    (hXp : rX.extendsRoles.getD [] = [Y]) (hYp : rY.extendsRoles.getD [] = [X])
    (hXY : X ≠ Y) :
    (∀ p, p ∈ getRolePermissions table X [] ↔
      p ∈ rX.permissions.getD [] ∨ p ∈ rY.permissions.getD []) ∧
    (∀ fuel, table.length + 1 ≤ fuel →
      getRolePermissionsF fuel table X [] =
        getRolePermissionsF (table.length + 1) table X []) ∧
    (∀ (m : List IRoleRead) (k : String), (expandedKeys m k []).Nodup) := by
  have hlen : 2 ≤ table.length := by
    have hnd : ([X, Y] : List String).Nodup := by simp [hXY]
    have hsub : ([X, Y] : List String) ⊆ table.map IRoleRead.key := by
      intro x hx
      rcases List.mem_cons.mp hx with rfl | hx
      · exact mapGet_some_mem_keys hX
      rcases List.mem_cons.mp hx with rfl | hx
      · exact mapGet_some_mem_keys hY
      · simp at hx
    have hle := (List.subperm_of_subset hnd hsub).length_le
    simpa using hle
  obtain ⟨f, hf⟩ : ∃ f, table.length + 1 = f + 3 := ⟨table.length - 2, by omega⟩
  refine ⟨?_, ?_, ?_⟩
  · intro p
    rw [getRolePermissions, hf]
    simp [getRolePermissionsF, goParents, hX, hY, hXp, hYp,
      Ne.symm hXY, mem_jsSetDedup]
  · intro fuel hfuel
    apply getRolePermissionsF_stable
    have := remainingKeys_le_length table ([] : List String)
    omega
  · intro m k
    exact (getRolePermissionsF_inv (m.length + 1) m k []).2.1

/-- Witness for C2: the direct cycle `x extends y extends x` over a
concrete two-role table. -/
theorem claim2_cycle_safety_witness :
    ("py" ∈ getRolePermissions
        [⟨"x", some ["px"], some ["y"]⟩, ⟨"y", some ["py"], some ["x"]⟩] "x" [] ↔
      "py" ∈ ["px"] ∨ "py" ∈ ["py"]) ∧
    (getRolePermissionsF 7
        [⟨"x", some ["px"], some ["y"]⟩, ⟨"y", some ["py"], some ["x"]⟩] "x" [] =
      getRolePermissionsF 3
        [⟨"x", some ["px"], some ["y"]⟩, ⟨"y", some ["py"], some ["x"]⟩] "x" []) ∧
    (expandedKeys [⟨"x", some ["px"], some ["y"]⟩, ⟨"y", some ["py"], some ["x"]⟩]
        "x" []).Nodup := by
  have h := claim2_cycle_safety
    [⟨"x", some ["px"], some ["y"]⟩, ⟨"y", some ["py"], some ["x"]⟩] "x" "y"
    ⟨"x", some ["px"], some ["y"]⟩ ⟨"y", some ["py"], some ["x"]⟩
    (by decide) (by decide) (by decide) (by decide) (by decide)
  exact ⟨h.1 "py", h.2.1 7 (by decide),
    h.2.2 [⟨"x", some ["px"], some ["y"]⟩, ⟨"y", some ["py"], some ["x"]⟩] "x"⟩

/-- C3: for every fully-qualified required permission
`"<type>:<action>"` and every set of granted permission strings, the
permission match succeeds if and only if the granted set contains the
exact string `"<type>:<action>"`, or `"<type>:*"`, or `"*:*"`; no other
granted string (prefix, glob, different case, or `"*:<action>"`) causes
a match. -/
theorem claim3_wildcard_matching :
    (∀ (resourceType action : String) (granted : List String),
      permissionMatches resourceType action granted = true ↔
        (resourceType ++ ":" ++ action) ∈ granted ∨
          (resourceType ++ ":*") ∈ granted ∨ ("*:*" : String) ∈ granted) ∧
    permissionMatches "document" "read" ["document:read"] = true ∧
    permissionMatches "document" "read" ["document:*"] = true ∧
    permissionMatches "document" "read" ["*:*"] = true ∧
    permissionMatches "document" "read" ["*:read"] = false ∧
    permissionMatches "document" "read" ["Document:read"] = false ∧
    permissionMatches "document" "read" ["document:rea"] = false ∧
    permissionMatches "document" "read" ["document"] = false ∧
    permissionMatches "document" "read" ["document:read:extra"] = false ∧
    permissionMatches "document" "read" [] = false := by
  refine ⟨?_, by decide, by decide, by decide, by decide, by decide, by decide,
    by decide, by decide, by decide⟩
  intro resourceType action granted
  simp [permissionMatches, or_assoc]

/-- C4: for every check request, if the role-assignment lookup for the
derived user key (and tenant, when given) returns an empty sequence,
`checkWithDetails` returns `{allowed: false, reason: "User <userKey> has
no role assignments"}` (with no debug payload) and performs no further
external calls: the role-definition table is never fetched. -/
theorem claim4_no_assignments_short_circuit
    (cfg : MutableConfig) (inited : Bool) (env : Env) (req : ICheckRequest)
    (cfg' : MutableConfig) (inited' : Bool) (slog : List ApiCall)
    (hscope : ensureScope cfg inited env = (.ok (cfg', inited'), slog))
    (hempty : env.listAssignments (getUserKey req.user) req.tenant = .ok none ∨
      env.listAssignments (getUserKey req.user) req.tenant = .ok (some [])) :
    checkWithDetails cfg inited env req =
      (.ok ⟨false, "User " ++ getUserKey req.user ++ " has no role assignments", none⟩,
        slog ++ [ApiCall.assignments]) ∧
    ApiCall.roles ∉ (checkWithDetails cfg inited env req).2 := by
  have hbody : checkBody env req =
      (.ok ⟨false, "User " ++ getUserKey req.user ++ " has no role assignments", none⟩,
        [ApiCall.assignments]) := by
    rcases hempty with h | h <;> simp [checkBody, h]
  have hmain : checkWithDetails cfg inited env req =
      (.ok ⟨false, "User " ++ getUserKey req.user ++ " has no role assignments", none⟩,
        slog ++ [ApiCall.assignments]) := by
    simp [checkWithDetails, hscope, hbody]
  refine ⟨hmain, ?_⟩
  rw [hmain]
  have hslog : slog = [] ∨ slog = [ApiCall.scopeFetch] := by
    have := ensureScope_log_cases cfg inited env
    rw [hscope] at this
    exact this
  rcases hslog with rfl | rfl <;> simp

/-- Witness for C4: a user with no assignments on a concrete
environment. -/
theorem claim4_no_assignments_short_circuit_witness :
    checkWithDetails
        ⟨"permis_key_k", some "p", some "e", false, true⟩ true
        ⟨fun _ _ => Except.ok (some []), Except.ok (some []),
          Except.ok ⟨some "p", some "e"⟩⟩
        ⟨UserParam.str "u", "read", ResourceParam.str "document", none⟩ =
      (.ok ⟨false, "User u has no role assignments", none⟩, [ApiCall.assignments]) ∧
    ApiCall.roles ∉ (checkWithDetails
        ⟨"permis_key_k", some "p", some "e", false, true⟩ true
        ⟨fun _ _ => Except.ok (some []), Except.ok (some []),
          Except.ok ⟨some "p", some "e"⟩⟩
        ⟨UserParam.str "u", "read", ResourceParam.str "document", none⟩).2 := by
  have h := claim4_no_assignments_short_circuit
    ⟨"permis_key_k", some "p", some "e", false, true⟩ true
    ⟨fun _ _ => Except.ok (some []), Except.ok (some []),
      Except.ok ⟨some "p", some "e"⟩⟩
    ⟨UserParam.str "u", "read", ResourceParam.str "document", none⟩
    ⟨"permis_key_k", some "p", some "e", false, true⟩ true []
    rfl (Or.inr rfl)
  exact ⟨h.1, h.2⟩

/-- C5 counterexample: with no configured scope, `throwOnError = false`
and a failing scope fetch, `checkWithDetails` surfaces the
scope-resolution error instead of converting it to an
`{allowed: false}` decision — the claim fails for step 1.  (`await
this.ensureScope()` sits before the `try` block.) -/
theorem claim5_error_policy_counterexample :
    (⟨"permis_key_k", none, none, false, false⟩ : MutableConfig).throwOnError = false ∧
    (checkWithDetails ⟨"permis_key_k", none, none, false, false⟩ false
        ⟨fun _ _ => Except.ok (some []), Except.ok (some []), Except.error "network down"⟩
        ⟨UserParam.str "u", "read", ResourceParam.str "document", none⟩).1 =
      .error (scopeErrorMsg "network down") :=
  ⟨rfl, rfl⟩

/-- C5 (amended): errors raised inside the `try` body of
`checkWithDetails` (steps 2-8: everything from field derivation through
decision assembly, in particular the assignment and role-table fetches)
are converted to `{allowed: false, reason: "Error during permission
check: <error>"}` when `throwOnError` is false and re-thrown unchanged
when it is true; but an error raised by step 1, scope resolution, always
propagates to the caller, whatever the error policy. -/
theorem claim5_error_policy
    (cfg : MutableConfig) (inited : Bool) (env : Env) (req : ICheckRequest) :
    (∀ e slog, ensureScope cfg inited env = (.error e, slog) →
      (checkWithDetails cfg inited env req).1 = .error e) ∧
    (∀ cfg' inited' slog e blog,
      ensureScope cfg inited env = (.ok (cfg', inited'), slog) →
      checkBody env req = (.error e, blog) →
      (checkWithDetails cfg inited env req).1 =
        (if cfg'.throwOnError then .error e
         else .ok ⟨false, "Error during permission check: " ++ e, none⟩)) := by
  constructor
  · intro e slog hscope
    simp [checkWithDetails, hscope]
  · intro cfg' inited' slog e blog hscope hbody
    by_cases ht : cfg'.throwOnError <;> simp [checkWithDetails, hscope, hbody, ht]

/-- Witness for C5 (amended): a failing assignment fetch is degraded to a
negative decision when `throwOnError` is false. -/
theorem claim5_error_policy_witness :
    (checkWithDetails ⟨"permis_key_k", some "p", some "e", false, false⟩ true
        ⟨fun _ _ => Except.error "boom", Except.ok (some []), Except.ok ⟨none, none⟩⟩
        ⟨UserParam.str "u", "read", ResourceParam.str "document", none⟩).1 =
      .ok ⟨false, "Error during permission check: boom", none⟩ := by
  have h := (claim5_error_policy ⟨"permis_key_k", some "p", some "e", false, false⟩ true
    ⟨fun _ _ => Except.error "boom", Except.ok (some []), Except.ok ⟨none, none⟩⟩
    ⟨UserParam.str "u", "read", ResourceParam.str "document", none⟩).2
    ⟨"permis_key_k", some "p", some "e", false, false⟩ true [] "boom"
    [ApiCall.assignments] rfl rfl
  simpa using h

/-- C6 counterexample: for the bare string `"doc:a:b"` the claim asserts
the instance key is the entire text after the first colon (`"a:b"`), but
the code takes `split(":")[1]` and derives `"a"`. -/
theorem claim6_resource_extraction_counterexample :
    extractResourceInstanceKey (ResourceParam.str "doc:a:b") = some "a" ∧
    extractResourceInstanceKey (ResourceParam.str "doc:a:b") ≠ some "a:b" := by
  constructor <;> decide

/-- C6 (amended): for every bare-string resource containing a colon, the
derived resource type is the text before the first colon, and the
derived resource instance key is `split(":")[1]` — the text strictly
between the first colon and the next one, which equals the entire text
after the first colon only when the string contains a single colon; for
a bare string without a colon the whole string is the type and the
instance key is absent; for a structured resource object the type is
its `.type` field and the instance key its `.key` field. -/
theorem claim6_resource_extraction (s : String) (r : ICheckResource) :
    (':' ∈ s.data →
      extractResourceType (ResourceParam.str s) =
        String.mk (s.data.takeWhile (fun c => c ≠ ':')) ∧
      extractResourceInstanceKey (ResourceParam.str s) =
        some (String.mk
          (((s.data.dropWhile (fun c => c ≠ ':')).drop 1).takeWhile (fun c => c ≠ ':')))) ∧
    (':' ∉ s.data →
      extractResourceType (ResourceParam.str s) = s ∧
      extractResourceInstanceKey (ResourceParam.str s) = none) ∧
    extractResourceType (ResourceParam.obj r) = r.type ∧
    extractResourceInstanceKey (ResourceParam.obj r) = r.key := by
  refine ⟨?_, ?_, rfl, rfl⟩
  · intro hc
    have hsplit := jsSplitChar_of_mem ':' s.data hc
    constructor
    · have hcontains : s.data.contains ':' = true := by
        simpa using hc
      rw [extractResourceType, if_pos hcontains, hsplit]
      simp
    · rw [extractResourceInstanceKey]
      rw [hsplit]
      have hne := jsSplitChar_ne_nil ':' ((s.data.dropWhile (fun c => c ≠ ':')).drop 1)
      have hlen : 0 < (jsSplitChar ':' ((s.data.dropWhile (fun c => c ≠ ':')).drop 1)).length :=
        List.length_pos.mpr hne
      simp only [List.length_cons]
      rw [if_pos (by omega)]
      rcases hrest : jsSplitChar ':' ((s.data.dropWhile (fun c => c ≠ ':')).drop 1)
        with _ | ⟨hd, tl⟩
      · exact absurd hrest hne
      · have hhd := jsSplitChar_head ':' ((s.data.dropWhile (fun c => c ≠ ':')).drop 1)
        rw [hrest] at hhd
        simp only [List.headD_cons] at hhd
        simp [hhd]
  · intro hc
    have hcontains : s.data.contains ':' = false := by
      simpa using hc
    have hsplit := jsSplitChar_of_not_mem ':' s.data hc
    constructor
    · rw [extractResourceType, if_neg (by simpa using hc)]
    · rw [extractResourceInstanceKey]
      simp [hsplit]

/-- Witness for C6 (amended) at the multi-colon string `"doc:a:b"` and a
concrete structured resource. -/
theorem claim6_resource_extraction_witness :
    extractResourceType (ResourceParam.str "doc:a:b") = "doc" ∧
    extractResourceInstanceKey (ResourceParam.str "doc:a:b") = some "a" ∧
    extractResourceType (ResourceParam.obj ⟨"document", some "k1"⟩) = "document" := by
  have h := claim6_resource_extraction "doc:a:b" ⟨"document", some "k1"⟩
  have h1 := h.1 (by decide)
  refine ⟨?_, ?_, h.2.2.1⟩
  · rw [h1.1]; decide
  · rw [h1.2]; decide

/-- C7 counterexample: with a partial scope (projectId supplied,
environmentId absent) and a failing scope fetch, `ensureScope` raises
the fatal error — the claim asserts the failure is swallowed whenever
at least one scope field was supplied. -/
theorem claim7_scope_failure_counterexample :
    (⟨"permis_key_k", some "p", none, false, true⟩ : MutableConfig).projectId =
      some "p" ∧
    (ensureScope ⟨"permis_key_k", some "p", none, false, true⟩ false
        ⟨fun _ _ => Except.ok (some []), Except.ok (some []),
          Except.error "boom"⟩).1 =
      .error (scopeErrorMsg "boom") :=
  ⟨rfl, rfl⟩

/-- C7 (amended): when the scope fetch fails, `ensureScope` raises the
fatal scope error whenever the configuration does not hold a full scope
(both projectId and environmentId truthy) — including when only a
partial scope was supplied.  When a full scope is configured,
`ensureScope` performs no fetch at all and succeeds unconditionally,
and `fetchAndSetScope` taken on its own swallows the failure. -/
theorem claim7_scope_failure_policy
    (cfg : MutableConfig) (env : Env) (e : String)
    (hfail : env.fetchScope = .error e) :
    (cfg.hasScope = false →
      (ensureScope cfg false env).1 = .error (scopeErrorMsg e)) ∧
    (cfg.hasScope = true →
      ensureScope cfg false env = (.ok (cfg, false), [])) ∧
    (cfg.hasScope = true → fetchAndSetScope cfg env = .ok (cfg, true)) := by
  refine ⟨fun hs => ?_, fun hs => ?_, fun hs => ?_⟩
  · simp [ensureScope, hs, fetchAndSetScope, hfail]
  · simp [ensureScope, hs]
  · simp [fetchAndSetScope, hfail, hs]

/-- Witness for C7 (amended): a config with no scope raises; a config
with a full scope does not fetch. -/
theorem claim7_scope_failure_policy_witness :
    (ensureScope ⟨"permis_key_k", none, none, false, true⟩ false
        ⟨fun _ _ => Except.ok (some []), Except.ok (some []),
          Except.error "boom"⟩).1 = .error (scopeErrorMsg "boom") ∧
    ensureScope ⟨"permis_key_k", some "p", some "e", false, true⟩ false
        ⟨fun _ _ => Except.ok (some []), Except.ok (some []),
          Except.error "boom"⟩ =
      (.ok (⟨"permis_key_k", some "p", some "e", false, true⟩, false), []) := by
  constructor
  · exact (claim7_scope_failure_policy ⟨"permis_key_k", none, none, false, true⟩
      ⟨fun _ _ => Except.ok (some []), Except.ok (some []), Except.error "boom"⟩
      "boom" rfl).1 rfl
  · exact (claim7_scope_failure_policy ⟨"permis_key_k", some "p", some "e", false, true⟩
      ⟨fun _ _ => Except.ok (some []), Except.ok (some []), Except.error "boom"⟩
      "boom" rfl).2.1 rfl

/-- C8 counterexample: a projectId explicitly configured as the empty
string is present in the configuration, yet `updateScope` overwrites it
(JavaScript truthiness treats `""` as unset). -/
theorem claim8_update_scope_counterexample :
    (⟨"permis_key_k", some "", none, false, true⟩ : MutableConfig).projectId =
      some "" ∧
    ((⟨"permis_key_k", some "", none, false, true⟩ : MutableConfig).updateScope
        (some "proj-1") (some "env-1")).projectId = some "proj-1" :=
  ⟨rfl, rfl⟩

/-- C8 (amended): `updateScope` never overwrites a field already holding
a truthy (nonempty) value, and ignores non-truthy fetched values; only a
field that is absent or empty can be filled, and only by a truthy
fetched value. -/
theorem claim8_update_scope (cfg : MutableConfig) (p e : Option String) :
    (jsTruthy cfg.projectId = true →
      (cfg.updateScope p e).projectId = cfg.projectId) ∧
    (jsTruthy cfg.environmentId = true →
      (cfg.updateScope p e).environmentId = cfg.environmentId) ∧
    (jsTruthy p = false → (cfg.updateScope p e).projectId = cfg.projectId) ∧
    (jsTruthy e = false → (cfg.updateScope p e).environmentId = cfg.environmentId) ∧
    (jsTruthy cfg.projectId = false → jsTruthy p = true →
      (cfg.updateScope p e).projectId = p) ∧
    (jsTruthy cfg.environmentId = false → jsTruthy e = true →
      (cfg.updateScope p e).environmentId = e) := by
  by_cases hp : jsTruthy p <;> by_cases hcp : jsTruthy cfg.projectId <;>
    by_cases he : jsTruthy e <;> by_cases hce : jsTruthy cfg.environmentId <;>
    simp [MutableConfig.updateScope, hp, hcp, he, hce]

/-- Witness for C8 (amended): a truthy configured projectId survives an
update. -/
theorem claim8_update_scope_witness :
    ((⟨"permis_key_k", some "p0", some "e0", false, true⟩ : MutableConfig).updateScope
        (some "p1") (some "e1")).projectId = some "p0" :=
  (claim8_update_scope ⟨"permis_key_k", some "p0", some "e0", false, true⟩
    (some "p1") (some "e1")).1 rfl

/-- The single-flight invariant holds initially. -/
theorem scopeInv_init : ScopeInv scopeInit := by
  simp [ScopeInv, scopeInit]

/-- The single-flight invariant is preserved by every scheduler step. -/
theorem scopeInv_step (c : Bool) (s : ScopeState) (h : ScopeInv s) :
    ScopeInv (schedStep c s) := by
  obtain ⟨si, pa, fc, pc1, pc2⟩ := s
  cases c <;> cases pc1 <;> cases pc2 <;> cases si <;> cases pa <;>
    simp_all [ScopeInv, schedStep, taskStep] <;> omega

/-- C9: in the cooperative-scheduling model of two concurrent
`ensureScope` calls on an instance with scope unset, every interleaving
issues at most one scope-fetch call, and once both calls have completed
exactly one fetch has been issued: concurrent callers all await the same
single in-flight resolution rather than starting a new one. -/
theorem claim9_scope_single_flight (sched : List Bool) :
    (runSched sched).fetchCount ≤ 1 ∧
    ((runSched sched).pc1 = TaskPc.finished → (runSched sched).pc2 = TaskPc.finished →
      (runSched sched).fetchCount = 1) := by
  have hinv : ScopeInv (runSched sched) := by
    rw [runSched]
    have h0 : ScopeInv scopeInit := scopeInv_init
    generalize scopeInit = s at h0 ⊢
    induction sched generalizing s with
    | nil => exact h0
    | cons c cs ih => exact ih _ (scopeInv_step c s h0)
  obtain ⟨h1, -, -, h4, -, -, -, -, h9, -⟩ := hinv
  exact ⟨h1, fun hp1 _ => (h4 (h9 hp1)).2⟩

/-- Witness for C9: a concrete schedule that runs both tasks to
completion issues exactly one fetch. -/
theorem claim9_scope_single_flight_witness :
    (runSched [true, true, false, false]).fetchCount ≤ 1 ∧
    (runSched [true, true, false, false]).fetchCount = 1 := by
  have h := claim9_scope_single_flight [true, true, false, false]
  exact ⟨h.1, h.2 (by decide) (by decide)⟩

/-- C10: in every decision produced by the full evaluation path of
`checkWithDetails`, `debug.evaluationTime` equals `0` (no timing is ever
measured), and the decisions produced by the no-assignment short-circuit
and by the error-conversion path carry no debug field at all. -/
theorem claim10_debug_payload
    (cfg : MutableConfig) (inited : Bool) (env : Env) (req : ICheckRequest) :
    (∀ resp log, checkWithDetails cfg inited env req = (.ok resp, log) →
      ∀ d, resp.debug = some d → d.evaluationTime = 0) ∧
    ((env.listAssignments (getUserKey req.user) req.tenant = .ok none ∨
        env.listAssignments (getUserKey req.user) req.tenant = .ok (some [])) →
      ∀ resp log, checkBody env req = (.ok resp, log) → resp.debug = none) ∧
    (∀ cfg' inited' slog e blog,
      ensureScope cfg inited env = (.ok (cfg', inited'), slog) →
      checkBody env req = (.error e, blog) → cfg'.throwOnError = false →
      ∀ resp log, checkWithDetails cfg inited env req = (.ok resp, log) →
        resp.debug = none) := by
  refine ⟨?_, ?_, ?_⟩
  · intro resp log hresp d hd
    rcases hE : ensureScope cfg inited env with ⟨res, slog⟩
    rcases res with e | ⟨cfg', inited'⟩
    · simp [checkWithDetails, hE] at hresp
    · rcases hB : checkBody env req with ⟨bres, blog⟩
      rcases bres with e | bresp
      · by_cases ht : cfg'.throwOnError
        · simp [checkWithDetails, hE, hB, ht] at hresp
        · simp [checkWithDetails, hE, hB, ht] at hresp
          rw [← hresp.1] at hd
          simp at hd
      · simp [checkWithDetails, hE, hB] at hresp
        rcases checkBody_ok_debug env req bresp blog hB with hn | ⟨mr, mp, hm⟩
        · rw [← hresp.1, hn] at hd
          exact absurd hd (by simp)
        · rw [← hresp.1, hm] at hd
          obtain rfl : d = ⟨mr, mp, 0⟩ := Option.some_inj.mp hd.symm
          rfl
  · intro hempty resp log hresp
    rcases hempty with h | h <;> simp [checkBody, h] at hresp <;> rw [← hresp.1]
  · intro cfg' inited' slog e blog hscope hbody ht resp log hresp
    simp [checkWithDetails, hscope, hbody, ht] at hresp
    rw [← hresp.1]

/-- Witness for C10: a concrete full-path decision carries a debug
payload whose `evaluationTime` is `0`. -/
theorem claim10_debug_payload_witness :
    (⟨["admin"], ["document:read"], 0⟩ : DebugInfo).evaluationTime = 0 :=
  (claim10_debug_payload ⟨"permis_key_k", some "p", some "e", false, true⟩ true
    ⟨fun _ _ => Except.ok (some [⟨"u", "admin", none, none, none⟩]),
      Except.ok (some [⟨"admin", some ["document:read"], none⟩]),
      Except.ok ⟨none, none⟩⟩
    ⟨UserParam.str "u", "read", ResourceParam.str "document", none⟩).1
    ⟨true, "Granted by role(s): admin", some ⟨["admin"], ["document:read"], 0⟩⟩
    [ApiCall.assignments, ApiCall.roles] rfl
    ⟨["admin"], ["document:read"], 0⟩ rfl

end Permissio
